import Mathlib

/-!
Verification of the event-aggregation, withdrawal-concentration and
snapshot-lookup core of the balancer-api-scripts repository
(`scripts/get_pool_tvl_deltas.py` and `scripts/get_pool_tvl_deltas_optimized.py`).

The Python code is shallowly embedded: USD amounts and timestamps are modelled
with exact arithmetic (`ℚ` and `ℤ`); JSON scalar field values are modelled by
`PyVal`; Python's `float(...)` coercion, which can raise, is modelled with
`Except String ℚ`; Python dicts that are only ever iterated in insertion order
are modelled as insertion-ordered association lists.
-/

namespace Balancer

/-- A JSON scalar as it arrives from the API and is stored in an event or
snapshot field: `null`, a number, or a string. -/
inductive PyVal where
  | vNone : PyVal
  | vNum : ℚ → PyVal
  | vStr : String → PyVal
deriving DecidableEq

/-- Python truthiness of a `PyVal`: `None` and `0` and `""` are falsy. -/
def pyTruthy : PyVal → Bool
  | .vNone => false
  | .vNum q => decide (q ≠ 0)
  | .vStr s => decide (s ≠ "")

/-- Python `x or y` on scalar values. -/
def pyOr (x y : PyVal) : PyVal := if pyTruthy x then x else y

/-- Accumulate decimal digits; fails on the first non-digit character. -/
def parseDigitsAux : List Char → ℕ → Option ℕ
  | [], acc => some acc
  | c :: cs, acc =>
    if c.isDigit then parseDigitsAux cs (acc * 10 + (c.toNat - 48)) else none

/-- A non-empty all-digit character list as a natural number. -/
def parseDigits : List Char → Option ℕ
  | [] => none
  | cs => parseDigitsAux cs 0

/-- The numeric value of a plain decimal string literal (optional sign, integer
part, optional fractional part), or `none` when the string is not numeric.
This models the string case of Python's `float()`; the exponent, infinity and
NaN spellings and surrounding-whitespace stripping are not modelled, as no
claim involves them. -/
def parseFloatString (s : String) : Option ℚ :=
  let signed : ℚ × List Char :=
    match s.toList with
    | '-' :: r => (-1, r)
    | '+' :: r => (1, r)
    | r => (1, r)
  let ip := signed.2.takeWhile (fun c => c ≠ '.')
  match signed.2.dropWhile (fun c => c ≠ '.') with
  | [] => (parseDigits ip).map (fun n => signed.1 * (n : ℚ))
  | _ :: fr =>
    if ip = [] ∧ fr = [] then none
    else
      match (if ip = [] then some 0 else parseDigits ip),
            (if fr = [] then some 0 else parseDigits fr) with
      | some n, some f => some (signed.1 * ((n : ℚ) + (f : ℚ) / (10 : ℚ) ^ fr.length))
      | _, _ => none

/-- Python's `float(v)` on a JSON scalar: numbers pass through, numeric strings
are parsed, `None` raises `TypeError`, non-numeric strings raise `ValueError`. -/
def pyFloat : PyVal → Except String ℚ
  | .vNone => .error "TypeError: float() argument is None"
  | .vNum q => .ok q
  | .vStr s =>
    match parseFloatString s with
    | some q => .ok q
    | none => .error "ValueError: could not convert string to float"

/-- A pool event as consumed by the aggregation code. `timestamp` models
`event.get("timestamp", 0)` (an integer, `0` when absent), `type` models
`event.get("type", "")`, `userAddress` models `event.get("userAddress", "")`
(absent and `None` behave exactly like `""` in the source, which only ever
tests the field for truthiness). `valueUSD` keeps the raw JSON scalar, `none`
meaning the key is absent. -/
structure Event where
  timestamp : ℤ
  type : String
  valueUSD : Option PyVal
  userAddress : String
deriving DecidableEq

/-- Embeds `float(event.get("valueUSD", 0) or 0.0)`, the valueUSD coercion used by
every aggregation site in both scripts. An absent key defaults to the number
`0`, a falsy value is replaced by `0.0`, then `float()` is applied. -/
def getValueUSD (ev : Event) : Except String ℚ :=
  pyFloat (pyOr (ev.valueUSD.getD (.vNum 0)) (.vNum 0))

/-- Embeds `normalize_timestamp` (get_pool_tvl_deltas_optimized.py lines 57-61); the
identical logic is inlined in `calculate_delta` (get_pool_tvl_deltas.py lines
82-85): values above 10^12 are taken to be milliseconds and divided by 1000,
truncating. All integer-division conventions agree here because the divided
timestamp is positive. -/
def normalize_timestamp (ts : ℤ) : ℤ :=
  if ts > 10 ^ 12 then ts / 1000 else ts

/-- One iteration of the event loop of `calculate_delta`
(get_pool_tvl_deltas.py lines 75-96): the range test uses the normalized
timestamp with inclusive bounds; inside the range `valueUSD` is coerced first
and the event type is tested afterwards. -/
def calcDeltaStep (startTs endTs : ℤ) (acc : ℚ × ℚ) (ev : Event) :
    Except String (ℚ × ℚ) :=
  let ts := normalize_timestamp ev.timestamp
  if startTs ≤ ts ∧ ts ≤ endTs then do
    let v ← getValueUSD ev
    if ev.type = "ADD" then pure (acc.1 + v, acc.2)
    else if ev.type = "REMOVE" then pure (acc.1, acc.2 + v)
    else pure acc
  else pure acc

/-- The `(adds, removes)` accumulation loop of `calculate_delta`. -/
def calcDeltaLoop (startTs endTs : ℤ) : ℚ × ℚ → List Event → Except String (ℚ × ℚ)
  | acc, [] => pure acc
  | acc, ev :: evs => do
    let acc' ← calcDeltaStep startTs endTs acc ev
    calcDeltaLoop startTs endTs acc' evs

/-- Embeds `calculate_delta` (get_pool_tvl_deltas.py lines 64-98): net flow
`adds - removes` over the events whose normalized timestamp lies in the
inclusive range. -/
def calculate_delta (events : List Event) (startTs endTs : ℤ) : Except String ℚ :=
  if events = [] then pure 0
  else do
    let acc ← calcDeltaLoop startTs endTs (0, 0) events
    pure (acc.1 - acc.2)

/-- Embeds `filter_events_by_range` (get_pool_tvl_deltas.py lines 325-336). The raw
integer timestamp is compared against the bounds: this helper performs no
millisecond normalization. -/
def filter_events_by_range (events : List Event) (startTs endTs : ℤ) : List Event :=
  events.filter (fun ev =>
    decide (startTs ≤ ev.timestamp ∧ ev.timestamp ≤ endTs) &&
    (ev.type == "ADD" || ev.type == "REMOVE"))

/-- Embeds `user_totals[addr] += v` on an insertion-ordered association list, the
model of a Python dict that is built by repeated `+=` and then iterated. -/
def addToTotals : List (String × ℚ) → String → ℚ → List (String × ℚ)
  | [], addr, v => [(addr, v)]
  | (a, w) :: rest, addr, v =>
    if a = addr then (a, w + v) :: rest else (a, w) :: addToTotals rest addr v

/-- The grouping loop of `calculate_withdrawal_analysis`
(get_pool_tvl_deltas.py lines 120-128): for each REMOVE event the valueUSD
coercion runs first (and can raise), then the value is added under the user
address when that address is non-empty. -/
def buildUserTotals : List (String × ℚ) → List Event → Except String (List (String × ℚ))
  | totals, [] => pure totals
  | totals, ev :: evs => do
    let v ← getValueUSD ev
    buildUserTotals
      (if ev.userAddress ≠ "" then addToTotals totals ev.userAddress v else totals) evs

/-- Embeds `sorted(user_totals.items(), key=lambda x: x[1], reverse=True)`: a stable
sort by value descending (`List.mergeSort` is stable, like Python's sort). -/
def sortUsersDesc (users : List (String × ℚ)) : List (String × ℚ) :=
  users.mergeSort (fun a b => decide (b.2 ≤ a.2))

/-- The 70% accumulation loop of `calculate_withdrawal_analysis`
(get_pool_tvl_deltas.py lines 144-155). `some` is the in-loop return — the
address is reported only when exactly one actor was needed — and `none` means
the loop ran past the last actor without reaching the threshold. -/
def concentrationLoop : List (String × ℚ) → ℚ → ℚ → ℕ → Option (ℕ × String)
  | [], _, _, _ => none
  | (addr, v) :: rest, total, cumulative, count =>
    let cum := cumulative + v
    let cnt := count + 1
    if (7 : ℚ) / 10 ≤ cum / total then some (cnt, if cnt = 1 then addr else "")
    else concentrationLoop rest total cum cnt

/-- Embeds `calculate_withdrawal_analysis` (get_pool_tvl_deltas.py lines 101-160).
The `startTs`/`endTs` parameters are accepted but never consulted, as in the
source, where events are documented as pre-filtered. -/
def calculate_withdrawal_analysis (events : List Event) (startTs endTs : ℤ) :
    Except String (ℕ × String) :=
  let removeEvents := events.filter (fun ev => ev.type == "REMOVE")
  if removeEvents = [] then pure (0, "")
  else do
    let userTotals ← buildUserTotals [] removeEvents
    if userTotals = [] then pure (0, "")
    else
      let totalWithdrawals := (userTotals.map Prod.snd).sum
      if totalWithdrawals = 0 then pure (0, "")
      else
        let sortedUsers := sortUsersDesc userTotals
        match concentrationLoop sortedUsers totalWithdrawals 0 0 with
        | some r => pure r
        | none =>
          pure (sortedUsers.length,
            if sortedUsers.length = 1 then (sortedUsers.headD ("", 0)).1 else "")

/-- The 70% accumulation loop of `calculate_withdrawal_analysis_from_results`
(get_pool_tvl_deltas_optimized.py lines 219-226). Unlike the original script's
loop, the in-loop return reports the last accumulated address whether or not
the count is 1. -/
def concentrationLoopOpt : List (String × ℚ) → ℚ → ℚ → ℕ → Option (ℕ × String)
  | [], _, _, _ => none
  | (addr, v) :: rest, total, cumulative, count =>
    let cum := cumulative + v
    let cnt := count + 1
    if (7 : ℚ) / 10 ≤ cum / total then some (cnt, addr)
    else concentrationLoopOpt rest total cum cnt

/-- Embeds `calculate_withdrawal_analysis_from_results`
(get_pool_tvl_deltas_optimized.py lines 197-231). `removeByUser` is the
insertion-ordered per-user removal mapping, `totalRemoves` the caller-supplied
total. The fallback also reports `sorted_users[0][0]` unconditionally. -/
def calculate_withdrawal_analysis_from_results
    (removeByUser : List (String × ℚ)) (totalRemoves : ℚ) : ℕ × String :=
  if removeByUser = [] ∨ totalRemoves = 0 then (0, "")
  else
    let sortedUsers := sortUsersDesc removeByUser
    match concentrationLoopOpt sortedUsers totalRemoves 0 0 with
    | some r => r
    | none => (sortedUsers.length, (sortedUsers.headD ("", 0)).1)

/-- Per-range accumulator of `process_events_for_ranges`
(get_pool_tvl_deltas_optimized.py lines 160-164). -/
structure RangeAcc where
  adds : ℚ
  removes : ℚ
  removeByUser : List (String × ℚ)
deriving DecidableEq

/-- Per-range output record of `process_events_for_ranges`
(get_pool_tvl_deltas_optimized.py lines 188-193). -/
structure RangeResult where
  adds : ℚ
  removes : ℚ
  removeByUser : List (String × ℚ)
  delta : ℚ
  totalRemoves : ℚ
deriving DecidableEq

/-- The inner per-range update for one ADD/REMOVE event
(get_pool_tvl_deltas_optimized.py lines 177-185): inclusive-bound membership
test on the normalized timestamp, then accumulate into `adds` or into
`removes` and (for a non-empty address) `remove_by_user`. -/
def updateRange (ts : ℤ) (etype addr : String) (v : ℚ) :
    (String × ℤ × ℤ) × RangeAcc → (String × ℤ × ℤ) × RangeAcc
  | (rng, acc) =>
    if rng.2.1 ≤ ts ∧ ts ≤ rng.2.2 then
      if etype = "ADD" then (rng, { acc with adds := acc.adds + v })
      else if etype = "REMOVE" then
        (rng, { acc with
                removes := acc.removes + v,
                removeByUser :=
                  if addr ≠ "" then addToTotals acc.removeByUser addr v
                  else acc.removeByUser })
      else (rng, acc)
    else (rng, acc)

/-- One event of the single pass (get_pool_tvl_deltas_optimized.py lines
167-185): the valueUSD coercion runs before the ADD/REMOVE test, so a
malformed valueUSD raises for every event type. -/
def processEvent (st : List ((String × ℤ × ℤ) × RangeAcc)) (ev : Event) :
    Except String (List ((String × ℤ × ℤ) × RangeAcc)) := do
  let ts := normalize_timestamp ev.timestamp
  let v ← getValueUSD ev
  if ev.type ≠ "ADD" ∧ ev.type ≠ "REMOVE" then pure st
  else pure (st.map (updateRange ts ev.type ev.userAddress v))

/-- The event loop of `process_events_for_ranges`. -/
def processLoop : List ((String × ℤ × ℤ) × RangeAcc) → List Event →
    Except String (List ((String × ℤ × ℤ) × RangeAcc))
  | st, [] => pure st
  | st, ev :: evs => do
    let st' ← processEvent st ev
    processLoop st' evs

/-- Embeds `process_events_for_ranges` (get_pool_tvl_deltas_optimized.py lines
144-194): one pass over the events for all named ranges, then the derived
`delta` and `total_removes` fields are filled in per range. -/
def process_events_for_ranges (events : List Event)
    (ranges : List (String × ℤ × ℤ)) : Except String (List (String × RangeResult)) := do
  let st ← processLoop (ranges.map (fun r => (r, ⟨0, 0, []⟩))) events
  pure (st.map (fun p =>
    (p.1.1,
     { adds := p.2.adds, removes := p.2.removes, removeByUser := p.2.removeByUser,
       delta := p.2.adds - p.2.removes, totalRemoves := p.2.removes })))

/-- A pool snapshot: `timestamp` is required (subscripted directly in the
source), `totalLiquidity` keeps the raw JSON scalar, `none` meaning absent. -/
structure Snapshot where
  timestamp : ℤ
  totalLiquidity : Option PyVal
deriving DecidableEq

/-- The scan performed by `min(snapshots, key=lambda x: abs(x["timestamp"] -
target_timestamp))`: Python's `min` replaces the running best only on a
strictly smaller key, so the first element attaining the minimum wins. -/
def minByAbsLoop (target : ℤ) : Snapshot → List Snapshot → Snapshot
  | best, [] => best
  | best, s :: rest =>
    minByAbsLoop target
      (if |s.timestamp - target| < |best.timestamp - target| then s else best) rest

/-- The snapshot chosen by `get_tvl_for_date` on a non-empty list. -/
def closestSnapshot (a : Snapshot) (rest : List Snapshot) (target : ℤ) : Snapshot :=
  minByAbsLoop target a rest

/-- Embeds `get_tvl_for_date` (identical in both scripts, get_pool_tvl_deltas.py
lines 18-26): `0.0` for an empty list, otherwise
`float(closest.get("totalLiquidity", 0) or 0.0)` on the closest snapshot. -/
def get_tvl_for_date (snapshots : List Snapshot) (target : ℤ) : Except String ℚ :=
  match snapshots with
  | [] => pure 0
  | a :: rest =>
    pyFloat (pyOr ((closestSnapshot a rest target).totalLiquidity.getD (.vNum 0)) (.vNum 0))

/-- Reference definition following the spec's words for the nearest-match
contract: the first element of the list minimizing the key ("first minimizer
wins on ties, stable scan order"), to be compared with the source's scan. -/
def firstMinBy (key : Snapshot → ℤ) : List Snapshot → Option Snapshot
  | [] => none
  | a :: rest =>
    match firstMinBy key rest with
    | none => some a
    | some c => some (if key a ≤ key c then a else c)

/-- Sum of the values of the first `k` entries of an association list. -/
def cumSum (l : List (String × ℚ)) (k : ℕ) : ℚ := ((l.take k).map Prod.snd).sum

/-- The spec's data-model precondition on events: `valueUSD` is a non-negative
number, null, or absent. -/
def ValueUSDNonneg (ev : Event) : Prop :=
  (∃ q, 0 ≤ q ∧ ev.valueUSD = some (.vNum q)) ∨
    ev.valueUSD = some .vNone ∨ ev.valueUSD = none


theorem cumSum_nil (k : ℕ) : cumSum [] k = 0 := by
  simp [cumSum]

theorem cumSum_cons_succ (a : String × ℚ) (l : List (String × ℚ)) (k : ℕ) :
    cumSum (a :: l) (k + 1) = a.2 + cumSum l k := by
  simp [cumSum]

theorem cumSum_one (a : String × ℚ) (l : List (String × ℚ)) :
    cumSum (a :: l) 1 = a.2 := by
  simp [cumSum]

theorem cumSum_length (l : List (String × ℚ)) :
    cumSum l l.length = (l.map Prod.snd).sum := by
  simp [cumSum]

theorem sortUsersDesc_perm (m : List (String × ℚ)) : (sortUsersDesc m).Perm m :=
  List.mergeSort_perm m _

theorem sortUsersDesc_sorted (m : List (String × ℚ)) :
    (sortUsersDesc m).Pairwise (fun a b => b.2 ≤ a.2) := by
  have h := @List.sorted_mergeSort (String × ℚ) (fun a b => decide (b.2 ≤ a.2))
    (fun a b c hab hbc => by
      simp only [decide_eq_true_eq] at *
      exact le_trans hbc hab)
    (fun a b => by
      simp only [Bool.or_eq_true, decide_eq_true_eq]
      exact le_total b.2 a.2) m
  exact h.imp (fun hab => by simpa using hab)

theorem sortUsersDesc_sum (m : List (String × ℚ)) :
    ((sortUsersDesc m).map Prod.snd).sum = (m.map Prod.snd).sum :=
  ((sortUsersDesc_perm m).map Prod.snd).sum_eq

theorem sortUsersDesc_ne_nil (m : List (String × ℚ)) (h : m ≠ []) :
    sortUsersDesc m ≠ [] := by
  intro hc
  have hp : ([] : List (String × ℚ)).Perm m := hc ▸ sortUsersDesc_perm m
  exact h hp.symm.eq_nil


theorem concentrationLoop_sole (l : List (String × ℚ)) (t : ℚ) :
    ∀ c n r, concentrationLoop l t c n = some r → r.1 = 1 ∨ r.2 = "" := by
  induction l with
  | nil => intro c n r h; simp [concentrationLoop] at h
  | cons p rest ih =>
    intro c n r h
    obtain ⟨addr, v⟩ := p
    rw [concentrationLoop] at h
    by_cases hth : (7 : ℚ) / 10 ≤ (c + v) / t
    · rw [if_pos hth] at h
      cases h
      by_cases h1 : n + 1 = 1
      · exact Or.inl h1
      · exact Or.inr (by simp [h1])
    · rw [if_neg hth] at h
      exact ih (c + v) (n + 1) r h

theorem concLoop_none_iff (l : List (String × ℚ)) (t : ℚ) :
    ∀ c n, concentrationLoop l t c n = none ↔ concentrationLoopOpt l t c n = none := by
  induction l with
  | nil => intro c n; simp [concentrationLoop, concentrationLoopOpt]
  | cons p rest ih =>
    intro c n
    obtain ⟨addr, v⟩ := p
    rw [concentrationLoop, concentrationLoopOpt]
    by_cases hth : (7 : ℚ) / 10 ≤ (c + v) / t
    · simp [if_pos hth]
    · rw [if_neg hth, if_neg hth]
      exact ih (c + v) (n + 1)

theorem concLoopOpt_none (l : List (String × ℚ)) (t : ℚ) :
    ∀ c n, concentrationLoopOpt l t c n = none →
      ∀ k, 0 < k → k ≤ l.length → (c + cumSum l k) / t < 7 / 10 := by
  induction l with
  | nil =>
    intro c n _ k hk hkl
    simp at hkl
    omega
  | cons p rest ih =>
    intro c n h k hk hkl
    obtain ⟨addr, v⟩ := p
    rw [concentrationLoopOpt] at h
    by_cases hth : (7 : ℚ) / 10 ≤ (c + v) / t
    · rw [if_pos hth] at h; cases h
    · rw [if_neg hth] at h
      obtain ⟨k', rfl⟩ : ∃ k', k = k' + 1 := ⟨k - 1, by omega⟩
      rcases Nat.eq_zero_or_pos k' with hk' | hk'
      · subst hk'
        rw [cumSum_one]
        exact lt_of_not_le hth
      · have := ih (c + v) (n + 1) h k' hk' (by simpa using hkl)
        rw [cumSum_cons_succ]
        convert this using 2
        ring

theorem concLoopOpt_some (l : List (String × ℚ)) (t : ℚ) :
    ∀ c n r, concentrationLoopOpt l t c n = some r →
      ∃ k, 0 < k ∧ k ≤ l.length ∧ r.1 = n + k ∧
        (7 : ℚ) / 10 ≤ (c + cumSum l k) / t ∧
        ∀ j, 0 < j → j < k → (c + cumSum l j) / t < 7 / 10 := by
  induction l with
  | nil => intro c n r h; simp [concentrationLoopOpt] at h
  | cons p rest ih =>
    intro c n r h
    obtain ⟨addr, v⟩ := p
    rw [concentrationLoopOpt] at h
    by_cases hth : (7 : ℚ) / 10 ≤ (c + v) / t
    · rw [if_pos hth] at h
      cases h
      refine ⟨1, Nat.one_pos, by simp, rfl, ?_, ?_⟩
      · rw [cumSum_one]; exact hth
      · intro j hj1 hj2; omega
    · rw [if_neg hth] at h
      obtain ⟨k', hk'pos, hk'len, hr1, hth', hmin⟩ := ih (c + v) (n + 1) r h
      refine ⟨k' + 1, by omega, by simpa using hk'len, by omega, ?_, ?_⟩
      · rw [cumSum_cons_succ]
        convert hth' using 2
        ring
      · intro j hj1 hj2
        obtain ⟨j', rfl⟩ : ∃ j', j = j' + 1 := ⟨j - 1, by omega⟩
        rcases Nat.eq_zero_or_pos j' with hj' | hj'
        · subst hj'
          rw [cumSum_one]
          exact lt_of_not_le hth
        · have := hmin j' hj' (by omega)
          rw [cumSum_cons_succ]
          convert this using 2
          ring

theorem concLoopOpt_reaches (l : List (String × ℚ)) (t : ℚ) (c : ℚ) (n : ℕ)
    (hne : l ≠ []) (hsum : c + (l.map Prod.snd).sum = t) (hpos : 0 < t) :
    ∃ r, concentrationLoopOpt l t c n = some r := by
  cases hcl : concentrationLoopOpt l t c n with
  | some r => exact ⟨r, rfl⟩
  | none =>
    exfalso
    have hlen : 0 < l.length := List.length_pos.mpr hne
    have := concLoopOpt_none l t c n hcl l.length hlen le_rfl
    rw [cumSum_length, hsum, div_self (ne_of_gt hpos)] at this
    norm_num at this


theorem wraOpt_eq_loop (m : List (String × ℚ)) (t : ℚ) (hm : m ≠ []) (ht : t ≠ 0) :
    calculate_withdrawal_analysis_from_results m t =
      match concentrationLoopOpt (sortUsersDesc m) t 0 0 with
      | some r => r
      | none => ((sortUsersDesc m).length, ((sortUsersDesc m).headD ("", 0)).1) := by
  rw [calculate_withdrawal_analysis_from_results,
    if_neg (by simp [hm, ht] : ¬(m = [] ∨ t = 0))]

theorem wra_sole (events : List Event) (s e : ℤ) (r : ℕ × String)
    (h : calculate_withdrawal_analysis events s e = .ok r) : r.1 = 1 ∨ r.2 = "" := by
  rw [calculate_withdrawal_analysis] at h
  simp only [pure, Except.pure] at h
  by_cases h1 : events.filter (fun ev => ev.type == "REMOVE") = []
  · rw [if_pos h1] at h
    cases h
    exact Or.inr rfl
  · rw [if_neg h1] at h
    cases hb : buildUserTotals [] (events.filter (fun ev => ev.type == "REMOVE")) with
    | error msg => rw [hb] at h; simp [bind, Except.bind] at h
    | ok totals =>
      rw [hb] at h
      simp only [bind, Except.bind] at h
      by_cases h2 : totals = []
      · rw [if_pos h2] at h; cases h; exact Or.inr rfl
      · rw [if_neg h2] at h
        by_cases h3 : (totals.map Prod.snd).sum = 0
        · rw [if_pos h3] at h; cases h; exact Or.inr rfl
        · rw [if_neg h3] at h
          cases hcl : concentrationLoop (sortUsersDesc totals)
              ((totals.map Prod.snd).sum) 0 0 with
          | some r' =>
            rw [hcl] at h
            cases h
            exact concentrationLoop_sole _ _ 0 0 _ hcl
          | none =>
            rw [hcl] at h
            cases h
            by_cases h4 : (sortUsersDesc totals).length = 1
            · exact Or.inl h4
            · exact Or.inr (by simp [h4])

/-- C1, counterexample: on the removals mapping A→40, B→35, C→25 with total 100
the optimized analyzer returns the pair (2, "B") — the actor field holds the
last-accumulated address, not the absent/empty value the claim requires for a
count greater than 1. -/
theorem c1_cex :
    calculate_withdrawal_analysis_from_results [("A", 40), ("B", 35), ("C", 25)] 100
      = (2, "B") ∧ ((2 : ℕ), ("B" : String)) ≠ (2, "") := by
  constructor
  · norm_num [calculate_withdrawal_analysis_from_results, sortUsersDesc,
      List.mergeSort, List.merge, concentrationLoopOpt]
    all_goals simp
  · simp

/-- C1, amended: in the original script `calculate_withdrawal_analysis` reports
a sole actor only when the returned count is 1 — whenever the count differs
from 1 the actor field is empty — and the A→40, B→35, C→25 example yields
(2, ""). The optimized `calculate_withdrawal_analysis_from_results`, however,
returns the last accumulated address even when the count exceeds 1: the same
mapping with total 100 yields (2, "B"). -/
theorem c1_thm :
    (∀ (events : List Event) (s e : ℤ) (r : ℕ × String),
      calculate_withdrawal_analysis events s e = .ok r → r.1 ≠ 1 → r.2 = "") ∧
    calculate_withdrawal_analysis
      [⟨100, "REMOVE", some (.vNum 40), "A"⟩,
       ⟨100, "REMOVE", some (.vNum 35), "B"⟩,
       ⟨100, "REMOVE", some (.vNum 25), "C"⟩] 0 200 = .ok (2, "") ∧
    calculate_withdrawal_analysis_from_results [("A", 40), ("B", 35), ("C", 25)] 100
      = (2, "B") := by
  refine ⟨?_, ?_, ?_⟩
  · intro events s e r h h1
    rcases wra_sole events s e r h with h' | h'
    · exact absurd h' h1
    · exact h'
  · norm_num [calculate_withdrawal_analysis, List.filter, buildUserTotals,
      getValueUSD, pyOr, pyTruthy, pyFloat, addToTotals, Except.bind, bind, pure,
      Except.pure]
    all_goals simp
    all_goals norm_num [sortUsersDesc, List.mergeSort, List.merge, concentrationLoop]
  · norm_num [calculate_withdrawal_analysis_from_results, sortUsersDesc,
      List.mergeSort, List.merge, concentrationLoopOpt]
    all_goals simp

/-- Witness for C1 at the three-actor example. -/
theorem c1_thm_witness : (((2 : ℕ), ("" : String)) : ℕ × String).2 = "" :=
  c1_thm.1
    [⟨100, "REMOVE", some (.vNum 40), "A"⟩,
     ⟨100, "REMOVE", some (.vNum 35), "B"⟩,
     ⟨100, "REMOVE", some (.vNum 25), "C"⟩] 0 200 (2, "") c1_thm.2.1 (by norm_num)

theorem wraOpt_loop_some (m : List (String × ℚ)) (t : ℚ)
    (hm : m ≠ []) (hsum : t = (m.map Prod.snd).sum) (hpos : 0 < t) :
    ∃ r, concentrationLoopOpt (sortUsersDesc m) t 0 0 = some r ∧
      calculate_withdrawal_analysis_from_results m t = r := by
  have hsum' : (0 : ℚ) + ((sortUsersDesc m).map Prod.snd).sum = t := by
    rw [zero_add, sortUsersDesc_sum]; exact hsum.symm
  have hne := sortUsersDesc_ne_nil m hm
  obtain ⟨r, hr⟩ := concLoopOpt_reaches _ t 0 0 hne hsum' hpos
  exact ⟨r, hr, by rw [wraOpt_eq_loop m t hm (ne_of_gt hpos), hr]⟩

/-- C9: under exact arithmetic, when the total equals the sum of the values of
a non-empty removals mapping and that sum is positive, the 70% accumulation
loop of either script returns from inside the loop, so the post-loop fallback
branch is unreachable; the optimized analyzer's output is the in-loop value. -/
theorem c9_thm (m : List (String × ℚ)) (t : ℚ)
    (hm : m ≠ []) (hsum : t = (m.map Prod.snd).sum) (hpos : 0 < t) :
    (∃ r, concentrationLoopOpt (sortUsersDesc m) t 0 0 = some r ∧
      calculate_withdrawal_analysis_from_results m t = r) ∧
    ∃ r, concentrationLoop (sortUsersDesc m) t 0 0 = some r := by
  obtain ⟨r, hr, hwra⟩ := wraOpt_loop_some m t hm hsum hpos
  refine ⟨⟨r, hr, hwra⟩, ?_⟩
  cases hcl : concentrationLoop (sortUsersDesc m) t 0 0 with
  | some r' => exact ⟨r', rfl⟩
  | none =>
    rw [concLoop_none_iff] at hcl
    rw [hcl] at hr
    cases hr

/-- Witness for C9 at the one-actor mapping A→1 with total 1. -/
theorem c9_thm_witness :
    (∃ r, concentrationLoopOpt (sortUsersDesc [("A", 1)]) 1 0 0 = some r ∧
      calculate_withdrawal_analysis_from_results [("A", 1)] 1 = r) ∧
    ∃ r, concentrationLoop (sortUsersDesc [("A", 1)]) 1 0 0 = some r :=
  c9_thm [("A", 1)] 1 (by simp) (by simp) (by norm_num)

/-- C2: for a non-empty removals mapping whose positive total equals the sum
of its values, the analyzer works on a descending, stable sort of the mapping
(a permutation of the input, sorted by value), and the returned count is the
least k for which the cumulative value of the top k actors divided by the
total reaches 7/10; on A→70, B→20, C→10 with total 100 both implementations
return (1, "A"). -/
theorem c2_thm :
    (∀ (m : List (String × ℚ)) (t : ℚ), m ≠ [] → t = (m.map Prod.snd).sum → 0 < t →
      (sortUsersDesc m).Perm m ∧
      (sortUsersDesc m).Pairwise (fun a b => b.2 ≤ a.2) ∧
      (7 : ℚ) / 10 ≤ cumSum (sortUsersDesc m)
          (calculate_withdrawal_analysis_from_results m t).1 / t ∧
      (∀ j, j < (calculate_withdrawal_analysis_from_results m t).1 →
        cumSum (sortUsersDesc m) j / t < 7 / 10)) ∧
    calculate_withdrawal_analysis_from_results [("A", 70), ("B", 20), ("C", 10)] 100
      = (1, "A") ∧
    calculate_withdrawal_analysis
      [⟨100, "REMOVE", some (.vNum 70), "A"⟩,
       ⟨100, "REMOVE", some (.vNum 20), "B"⟩,
       ⟨100, "REMOVE", some (.vNum 10), "C"⟩] 0 200 = .ok (1, "A") := by
  refine ⟨?_, ?_, ?_⟩
  · intro m t hm hsum hpos
    refine ⟨sortUsersDesc_perm m, sortUsersDesc_sorted m, ?_⟩
    obtain ⟨r, hr, hwra⟩ := wraOpt_loop_some m t hm hsum hpos
    obtain ⟨k, hkpos, hklen, hr1, hth, hmin⟩ := concLoopOpt_some _ t 0 0 r hr
    simp only [zero_add] at hr1 hth hmin
    rw [hwra, hr1]
    refine ⟨by simpa using hth, ?_⟩
    intro j hj
    rcases Nat.eq_zero_or_pos j with hj0 | hj0
    · subst hj0
      simp [cumSum]
    · have := hmin j hj0 hj
      simpa using this
  · norm_num [calculate_withdrawal_analysis_from_results, sortUsersDesc,
      List.mergeSort, List.merge, concentrationLoopOpt]
    all_goals simp
  · norm_num [calculate_withdrawal_analysis, List.filter, buildUserTotals,
      getValueUSD, pyOr, pyTruthy, pyFloat, addToTotals, Except.bind, bind, pure,
      Except.pure]
    all_goals simp
    all_goals norm_num [sortUsersDesc, List.mergeSort, List.merge, concentrationLoop]

/-- Witness for C2 at the mapping A→7, B→3 with total 10. -/
theorem c2_thm_witness :
    (sortUsersDesc [("A", (7 : ℚ)), ("B", 3)]).Perm [("A", 7), ("B", 3)] ∧
    (sortUsersDesc [("A", (7 : ℚ)), ("B", 3)]).Pairwise (fun a b => b.2 ≤ a.2) ∧
    (7 : ℚ) / 10 ≤ cumSum (sortUsersDesc [("A", 7), ("B", 3)])
        (calculate_withdrawal_analysis_from_results [("A", 7), ("B", 3)] 10).1 / 10 ∧
    (∀ j, j < (calculate_withdrawal_analysis_from_results [("A", 7), ("B", 3)] 10).1 →
      cumSum (sortUsersDesc [("A", 7), ("B", 3)]) j / 10 < 7 / 10) :=
  c2_thm.1 [("A", 7), ("B", 3)] 10 (by simp) (by norm_num) (by norm_num)

/-- C8: the concentration analysis returns (0, "") for an empty mapping and
for a zero total, and the original analyzer returns ok (0, "") on an empty
event list — the empty/zero inputs produce no failure. -/
theorem c8_thm :
    (∀ t : ℚ, calculate_withdrawal_analysis_from_results [] t = (0, "")) ∧
    (∀ m : List (String × ℚ), calculate_withdrawal_analysis_from_results m 0 = (0, "")) ∧
    (∀ s e : ℤ, calculate_withdrawal_analysis [] s e = .ok (0, "")) := by
  refine ⟨fun t => ?_, fun m => ?_, fun s e => rfl⟩
  · rw [calculate_withdrawal_analysis_from_results, if_pos (Or.inl rfl)]
  · rw [calculate_withdrawal_analysis_from_results, if_pos (Or.inr rfl)]

/-- C10: `calculate_withdrawal_analysis` never consults its start/end
parameters — for any event list its result is the same for any two pairs of
range arguments. -/
theorem c10_thm :
    ∀ (events : List Event) (s1 e1 s2 e2 : ℤ),
      calculate_withdrawal_analysis events s1 e1 =
        calculate_withdrawal_analysis events s2 e2 :=
  fun _ _ _ _ _ => rfl


theorem getValueUSD_nonneg (ev : Event) (h : ValueUSDNonneg ev) :
    ∃ q, getValueUSD ev = .ok q ∧ 0 ≤ q := by
  rcases h with ⟨q, hq, hv⟩ | hv | hv
  · by_cases h0 : q = 0
    · subst h0
      exact ⟨0, by simp [getValueUSD, hv, pyOr, pyTruthy, pyFloat], le_refl 0⟩
    · exact ⟨q, by simp [getValueUSD, hv, pyOr, pyTruthy, pyFloat, h0], hq⟩
  · exact ⟨0, by simp [getValueUSD, hv, pyOr, pyTruthy, pyFloat], le_refl 0⟩
  · exact ⟨0, by simp [getValueUSD, hv, pyOr, pyTruthy, pyFloat], le_refl 0⟩

theorem calcDeltaStep_ok (s e : ℤ) (a r q : ℚ) (ev : Event)
    (hq : getValueUSD ev = .ok q) :
    calcDeltaStep s e (a, r) ev = .ok
      (if s ≤ normalize_timestamp ev.timestamp ∧ normalize_timestamp ev.timestamp ≤ e then
        if ev.type = "ADD" then (a + q, r)
        else if ev.type = "REMOVE" then (a, r + q) else (a, r)
      else (a, r)) := by
  rw [calcDeltaStep]
  simp only [hq, Except.bind, bind]
  split_ifs <;> simp [pure, Except.pure]

theorem calcDeltaLoop_nonneg (s e : ℤ) :
    ∀ (evs : List Event) (a r : ℚ), (∀ ev ∈ evs, ValueUSDNonneg ev) → 0 ≤ a → 0 ≤ r →
      ∃ a' r', calcDeltaLoop s e (a, r) evs = .ok (a', r') ∧ 0 ≤ a' ∧ 0 ≤ r' := by
  intro evs
  induction evs with
  | nil => intro a r _ ha hr; exact ⟨a, r, rfl, ha, hr⟩
  | cons ev rest ih =>
    intro a r hall ha hr
    obtain ⟨q, hq, hq0⟩ := getValueUSD_nonneg ev (hall ev (by simp))
    have hrest : ∀ x ∈ rest, ValueUSDNonneg x := fun x hx => hall x (by simp [hx])
    rw [calcDeltaLoop, calcDeltaStep_ok s e a r q ev hq]
    simp only [Except.bind, bind]
    split_ifs with h1 h2 h3
    · exact ih (a + q) r hrest (add_nonneg ha hq0) hr
    · exact ih a (r + q) hrest ha (add_nonneg hr hq0)
    · exact ih a r hrest ha hr
    · exact ih a r hrest ha hr

theorem updateRange_nonneg (ts : ℤ) (etype addr : String) (v : ℚ) (hv : 0 ≤ v)
    (p : (String × ℤ × ℤ) × RangeAcc) (h : 0 ≤ p.2.adds ∧ 0 ≤ p.2.removes) :
    0 ≤ (updateRange ts etype addr v p).2.adds ∧
      0 ≤ (updateRange ts etype addr v p).2.removes := by
  obtain ⟨rng, acc⟩ := p
  rw [updateRange]
  split_ifs <;>
    first
      | exact ⟨add_nonneg h.1 hv, h.2⟩
      | exact ⟨h.1, add_nonneg h.2 hv⟩
      | exact h

theorem processLoop_nonneg :
    ∀ (evs : List Event) (st : List ((String × ℤ × ℤ) × RangeAcc)),
      (∀ ev ∈ evs, ValueUSDNonneg ev) →
      (∀ p ∈ st, 0 ≤ p.2.adds ∧ 0 ≤ p.2.removes) →
      ∃ st', processLoop st evs = .ok st' ∧
        ∀ p ∈ st', 0 ≤ p.2.adds ∧ 0 ≤ p.2.removes := by
  intro evs
  induction evs with
  | nil => intro st _ hst; exact ⟨st, rfl, hst⟩
  | cons ev rest ih =>
    intro st hall hst
    obtain ⟨q, hq, hq0⟩ := getValueUSD_nonneg ev (hall ev (by simp))
    have hrest : ∀ x ∈ rest, ValueUSDNonneg x := fun x hx => hall x (by simp [hx])
    have hstep : ∃ st1, processEvent st ev = .ok st1 ∧
        ∀ p ∈ st1, 0 ≤ p.2.adds ∧ 0 ≤ p.2.removes := by
      rw [processEvent]
      simp only [hq, Except.bind, bind]
      split_ifs with h1
      · exact ⟨st, rfl, hst⟩
      · refine ⟨_, rfl, ?_⟩
        intro p hp
        rw [List.mem_map] at hp
        obtain ⟨p0, hp0, rfl⟩ := hp
        exact updateRange_nonneg _ _ _ _ hq0 p0 (hst p0 hp0)
    obtain ⟨st1, hst1, hinv⟩ := hstep
    rw [processLoop, hst1]
    simp only [Except.bind, bind]
    exact ih st1 hrest hinv

/-- C3: when every event's valueUSD is a non-negative number, null or absent,
the aggregation of both scripts succeeds, the accumulated adds and removes
totals are non-negative, and each reported per-window delta (net flow) equals
exactly adds minus removes. -/
theorem c3_thm :
    ∀ (events : List Event) (s e : ℤ),
      (∀ ev ∈ events, ValueUSDNonneg ev) →
      (∃ a r, calcDeltaLoop s e (0, 0) events = .ok (a, r) ∧ 0 ≤ a ∧ 0 ≤ r ∧
        calculate_delta events s e = .ok (a - r)) ∧
      ∀ ranges : List (String × ℤ × ℤ),
        ∃ res, process_events_for_ranges events ranges = .ok res ∧
          ∀ p ∈ res, 0 ≤ p.2.adds ∧ 0 ≤ p.2.removes ∧
            p.2.delta = p.2.adds - p.2.removes ∧ p.2.totalRemoves = p.2.removes := by
  intro events s e hall
  constructor
  · obtain ⟨a, r, hl, ha, hr⟩ := calcDeltaLoop_nonneg s e events 0 0 hall le_rfl le_rfl
    refine ⟨a, r, hl, ha, hr, ?_⟩
    rw [calculate_delta]
    by_cases hne : events = []
    · subst hne
      cases hl
      norm_num [pure, Except.pure]
    · rw [if_neg hne, hl]
      simp [Except.bind, bind, pure, Except.pure]
  · intro ranges
    have hinit : ∀ p ∈ ranges.map (fun r => (r, (⟨0, 0, []⟩ : RangeAcc))),
        0 ≤ p.2.adds ∧ 0 ≤ p.2.removes := by
      intro p hp
      rw [List.mem_map] at hp
      obtain ⟨r0, _, rfl⟩ := hp
      exact ⟨le_refl 0, le_refl 0⟩
    obtain ⟨st', hst', hinv⟩ := processLoop_nonneg events _ hall hinit
    rw [process_events_for_ranges]
    rw [hst']
    simp only [Except.bind, bind, pure, Except.pure]
    refine ⟨_, rfl, ?_⟩
    intro p hp
    rw [List.mem_map] at hp
    obtain ⟨p0, hp0, rfl⟩ := hp
    obtain ⟨h1, h2⟩ := hinv p0 hp0
    exact ⟨h1, h2, rfl, rfl⟩

/-- Witness for C3 at a two-event list with a numeric and a null valueUSD. -/
theorem c3_thm_witness :
    (∃ a r, calcDeltaLoop 0 10 (0, 0)
        [⟨5, "ADD", some (.vNum 3), "u"⟩, ⟨6, "REMOVE", some .vNone, "w"⟩] = .ok (a, r) ∧
      0 ≤ a ∧ 0 ≤ r ∧
      calculate_delta [⟨5, "ADD", some (.vNum 3), "u"⟩, ⟨6, "REMOVE", some .vNone, "w"⟩] 0 10
        = .ok (a - r)) ∧
    ∀ ranges : List (String × ℤ × ℤ),
      ∃ res, process_events_for_ranges
          [⟨5, "ADD", some (.vNum 3), "u"⟩, ⟨6, "REMOVE", some .vNone, "w"⟩] ranges = .ok res ∧
        ∀ p ∈ res, 0 ≤ p.2.adds ∧ 0 ≤ p.2.removes ∧
          p.2.delta = p.2.adds - p.2.removes ∧ p.2.totalRemoves = p.2.removes :=
  c3_thm [⟨5, "ADD", some (.vNum 3), "u"⟩, ⟨6, "REMOVE", some .vNone, "w"⟩] 0 10
    (by intro ev hev
        simp only [List.mem_cons, List.not_mem_nil, or_false] at hev
        rcases hev with rfl | rfl
        · exact Or.inl ⟨3, by norm_num, rfl⟩
        · exact Or.inr (Or.inl rfl))


theorem calcDeltaStep_eq (s e : ℤ) (acc : ℚ × ℚ) (ev : Event) :
    calcDeltaStep s e acc ev =
      (if s ≤ normalize_timestamp ev.timestamp ∧ normalize_timestamp ev.timestamp ≤ e then
        match getValueUSD ev with
        | .error msg => .error msg
        | .ok v =>
          if ev.type = "ADD" then .ok (acc.1 + v, acc.2)
          else if ev.type = "REMOVE" then .ok (acc.1, acc.2 + v)
          else .ok acc
      else .ok acc) := by
  rw [calcDeltaStep]
  cases hv : getValueUSD ev <;> split_ifs <;>
    simp [Except.bind, bind, pure, Except.pure]

theorem calcDeltaStep_shift (s e : ℤ) (ev : Event) (a r x y p q : ℚ)
    (h : calcDeltaStep s e (a, r) ev = .ok (p, q)) :
    calcDeltaStep s e (a + x, r + y) ev = .ok (p + x, q + y) := by
  cases hv : getValueUSD ev with
  | error msg =>
    rw [calcDeltaStep_eq, hv] at h
    rw [calcDeltaStep_eq, hv]
    split_ifs at h ⊢ with h1
    simp only [Except.ok.injEq, Prod.mk.injEq] at h
    obtain ⟨rfl, rfl⟩ := h
    rfl
  | ok v =>
    rw [calcDeltaStep_eq, hv] at h
    rw [calcDeltaStep_eq, hv]
    split_ifs at h ⊢ with h1 h2 h3 <;>
      simp only [Except.ok.injEq, Prod.mk.injEq] at h <;>
      obtain ⟨rfl, rfl⟩ := h <;>
      simp only [Except.ok.injEq, Prod.mk.injEq] <;>
      constructor <;> ring_nf

theorem calcDeltaLoop_shift (s e : ℤ) :
    ∀ (evs : List Event) (a r x y a' r' : ℚ),
      calcDeltaLoop s e (a, r) evs = .ok (a', r') →
      calcDeltaLoop s e (a + x, r + y) evs = .ok (a' + x, r' + y) := by
  intro evs
  induction evs with
  | nil =>
    intro a r x y a' r' h
    simp only [calcDeltaLoop, pure, Except.pure, Except.ok.injEq, Prod.mk.injEq] at h ⊢
    obtain ⟨rfl, rfl⟩ := h
    exact ⟨rfl, rfl⟩
  | cons ev rest ih =>
    intro a r x y a' r' h
    rw [calcDeltaLoop] at h ⊢
    cases hs : calcDeltaStep s e (a, r) ev with
    | error msg => rw [hs] at h; simp [Except.bind, bind] at h
    | ok acc1 =>
      obtain ⟨p, q⟩ := acc1
      rw [hs] at h
      simp only [Except.bind, bind] at h ⊢
      rw [calcDeltaStep_shift s e ev a r x y p q hs]
      exact ih p q x y a' r' h

/-- C4: window bounds are inclusive on both ends — a normalized timestamp
equal to the start or to the end bound passes the shared membership test, an
ADD (resp. REMOVE) event at either bound contributes its value to the adds
(resp. removes) accumulator of `calculate_delta`, and the optimized per-range
update accumulates it likewise. -/
theorem c4_thm :
    (∀ s e ts : ℤ, s ≤ e → (ts = s ∨ ts = e) → decide (s ≤ ts ∧ ts ≤ e) = true) ∧
    (∀ (s e : ℤ) (ev : Event) (evs : List Event) (q a r : ℚ),
      s ≤ e →
      (normalize_timestamp ev.timestamp = s ∨ normalize_timestamp ev.timestamp = e) →
      getValueUSD ev = .ok q →
      calcDeltaLoop s e (0, 0) evs = .ok (a, r) →
      (ev.type = "ADD" → calcDeltaLoop s e (0, 0) (ev :: evs) = .ok (a + q, r)) ∧
      (ev.type = "REMOVE" → calcDeltaLoop s e (0, 0) (ev :: evs) = .ok (a, r + q))) ∧
    (∀ (name : String) (s e ts : ℤ) (etype addr : String) (v : ℚ) (acc : RangeAcc),
      s ≤ e → (ts = s ∨ ts = e) →
      (etype = "ADD" → updateRange ts etype addr v ((name, s, e), acc)
        = ((name, s, e), { acc with adds := acc.adds + v })) ∧
      (etype = "REMOVE" → updateRange ts etype addr v ((name, s, e), acc)
        = ((name, s, e), { acc with
            removes := acc.removes + v,
            removeByUser := if addr ≠ "" then addToTotals acc.removeByUser addr v
                            else acc.removeByUser }))) := by
  have hmem : ∀ s e ts : ℤ, s ≤ e → (ts = s ∨ ts = e) → s ≤ ts ∧ ts ≤ e := by
    intro s e ts hse h
    rcases h with rfl | rfl
    · exact ⟨le_refl ts, hse⟩
    · exact ⟨hse, le_refl ts⟩
  refine ⟨?_, ?_, ?_⟩
  · intro s e ts hse h
    exact decide_eq_true (hmem s e ts hse h)
  · intro s e ev evs q a r hse hts hq hloop
    have hin := hmem s e _ hse hts
    have hstep := calcDeltaStep_ok s e 0 0 q ev hq
    rw [if_pos hin] at hstep
    constructor
    · intro hadd
      rw [if_pos hadd] at hstep
      rw [calcDeltaLoop, hstep]
      simp only [Except.bind, bind]
      have := calcDeltaLoop_shift s e evs 0 0 q 0 a r hloop
      simpa using this
    · intro hrem
      rw [if_neg (by simp [hrem]), if_pos hrem] at hstep
      rw [calcDeltaLoop, hstep]
      simp only [Except.bind, bind]
      have := calcDeltaLoop_shift s e evs 0 0 0 q a r hloop
      simpa using this
  · intro name s e ts etype addr v acc hse hts
    have hin : (name, s, e).2.1 ≤ ts ∧ ts ≤ (name, s, e).2.2 := hmem s e ts hse hts
    constructor
    · intro hadd
      rw [updateRange, if_pos hin, if_pos hadd]
    · intro hrem
      rw [updateRange, if_pos hin, if_neg (by simp [hrem]), if_pos hrem]

/-- Witness for C4 at events sitting exactly on the bounds of [0, 5]. -/
theorem c4_thm_witness :
    decide ((0 : ℤ) ≤ 0 ∧ (0 : ℤ) ≤ 5) = true ∧
    ((Event.mk 0 "ADD" (some (.vNum 10)) "u").type = "ADD" →
      calcDeltaLoop 0 5 (0, 0) [⟨0, "ADD", some (.vNum 10), "u"⟩] = .ok (0 + 10, 0)) ∧
    (("REMOVE" : String) = "REMOVE" →
      updateRange 5 "REMOVE" "u" 10 (("w", 0, 5), ⟨0, 0, []⟩)
        = (("w", 0, 5),
            { adds := 0,
              removes := 0 + 10,
              removeByUser := if ("u" : String) ≠ "" then addToTotals [] "u" 10
                              else [] })) := by
  refine ⟨c4_thm.1 0 5 0 (by norm_num) (Or.inl rfl), ?_, ?_⟩
  · exact (c4_thm.2.1 0 5 ⟨0, "ADD", some (.vNum 10), "u"⟩ [] 10 0 0 (by norm_num)
      (Or.inl rfl) (by norm_num [getValueUSD, pyOr, pyTruthy, pyFloat]) rfl).1
  · exact (c4_thm.2.2 "w" 0 5 5 "REMOVE" "u" 10 ⟨0, 0, []⟩ (by norm_num) (Or.inr rfl)).2

/-- C5, code bug: `filter_events_by_range` of the original script compares the
raw timestamp against the bounds, so the millisecond event at 1700000000000 is
dropped there while the equivalent seconds event at 1700000000 is kept, and
the script's filter-then-delta pipeline yields 0 instead of 10 — even though
`calculate_delta` itself normalizes (it yields 10 on the unfiltered
millisecond event) and the optimized single pass treats the two events
identically. -/
theorem c5_thm :
    filter_events_by_range [⟨1700000000000, "ADD", some (.vNum 10), "u"⟩]
        1699999000 1700001000 = [] ∧
    filter_events_by_range [⟨1700000000, "ADD", some (.vNum 10), "u"⟩]
        1699999000 1700001000 = [⟨1700000000, "ADD", some (.vNum 10), "u"⟩] ∧
    calculate_delta (filter_events_by_range
        [⟨1700000000000, "ADD", some (.vNum 10), "u"⟩] 1699999000 1700001000)
        1699999000 1700001000 = .ok 0 ∧
    calculate_delta (filter_events_by_range
        [⟨1700000000, "ADD", some (.vNum 10), "u"⟩] 1699999000 1700001000)
        1699999000 1700001000 = .ok 10 ∧
    normalize_timestamp 1700000000000 = 1700000000 ∧
    normalize_timestamp 1700000000 = 1700000000 ∧
    calculate_delta [⟨1700000000000, "ADD", some (.vNum 10), "u"⟩]
        1699999000 1700001000 = .ok 10 ∧
    process_events_for_ranges [⟨1700000000000, "ADD", some (.vNum 10), "u"⟩]
        [("w", 1699999000, 1700001000)] =
      process_events_for_ranges [⟨1700000000, "ADD", some (.vNum 10), "u"⟩]
        [("w", 1699999000, 1700001000)] := by
  refine ⟨by simp [filter_events_by_range, List.filter], by simp [filter_events_by_range, List.filter], ?_, ?_, by decide, by decide, ?_, ?_⟩
  · simp [filter_events_by_range, List.filter, calculate_delta, pure, Except.pure]
  · norm_num [filter_events_by_range, List.filter, calculate_delta, calcDeltaLoop,
      calcDeltaStep, normalize_timestamp, getValueUSD, pyOr, pyTruthy, pyFloat,
      Except.bind, bind, pure, Except.pure]
  · norm_num [calculate_delta, calcDeltaLoop, calcDeltaStep, normalize_timestamp,
      getValueUSD, pyOr, pyTruthy, pyFloat, Except.bind, bind, pure, Except.pure]
  · norm_num [process_events_for_ranges, processLoop, processEvent, updateRange,
      normalize_timestamp, getValueUSD, pyOr, pyTruthy, pyFloat, Except.bind,
      bind, pure, Except.pure]

/-- C6, code bug: a null, absent or empty valueUSD degrades to 0, but a truthy
non-numeric valueUSD such as "abc" makes the float() coercion raise — both
aggregations return an error instead of treating the value as 0; a null
valueUSD aggregates to 0 without failure. -/
theorem c6_thm :
    getValueUSD ⟨0, "ADD", some .vNone, "u"⟩ = .ok 0 ∧
    getValueUSD ⟨0, "ADD", none, "u"⟩ = .ok 0 ∧
    getValueUSD ⟨0, "ADD", some (.vStr ""), "u"⟩ = .ok 0 ∧
    getValueUSD ⟨0, "ADD", some (.vStr "abc"), "u"⟩
      = .error "ValueError: could not convert string to float" ∧
    calculate_delta [⟨5, "ADD", some (.vStr "abc"), "u"⟩] 0 10
      = .error "ValueError: could not convert string to float" ∧
    process_events_for_ranges [⟨5, "SWAP", some (.vStr "abc"), "u"⟩] [("w", 0, 10)]
      = .error "ValueError: could not convert string to float" ∧
    calculate_delta [⟨5, "ADD", some .vNone, "u"⟩, ⟨5, "REMOVE", none, "w"⟩] 0 10
      = .ok 0 := by
  refine ⟨rfl, rfl, rfl, rfl, rfl, rfl, ?_⟩
  norm_num [calculate_delta, calcDeltaLoop, calcDeltaStep, normalize_timestamp,
    getValueUSD, pyOr, pyTruthy, pyFloat, Except.bind, bind, pure, Except.pure]


theorem firstMinBy_mem (key : Snapshot → ℤ) :
    ∀ (l : List Snapshot) (c : Snapshot), firstMinBy key l = some c → c ∈ l := by
  intro l
  induction l with
  | nil => intro c h; simp [firstMinBy] at h
  | cons a rest ih =>
    intro c h
    rw [firstMinBy] at h
    cases hr : firstMinBy key rest with
    | none => rw [hr] at h; cases h; exact List.mem_cons_self a rest
    | some c' =>
      rw [hr] at h
      cases h
      split_ifs
      · exact List.mem_cons_self a rest
      · exact List.mem_cons_of_mem a (ih c' hr)

theorem firstMinBy_min (key : Snapshot → ℤ) :
    ∀ (l : List Snapshot) (c : Snapshot), firstMinBy key l = some c →
      ∀ s ∈ l, key c ≤ key s := by
  intro l
  induction l with
  | nil => intro c h; simp [firstMinBy] at h
  | cons a rest ih =>
    intro c h s hs
    rw [firstMinBy] at h
    cases hr : firstMinBy key rest with
    | none =>
      rw [hr] at h
      cases h
      have : rest = [] := by
        cases rest with
        | nil => rfl
        | cons b rb => rw [firstMinBy] at hr; cases hbr : firstMinBy key rb <;>
            rw [hbr] at hr <;> cases hr
      subst this
      simp at hs
      subst hs
      exact le_refl _
    | some c' =>
      rw [hr] at h
      cases h
      rcases List.mem_cons.mp hs with rfl | hs'
      · split_ifs
        · exact le_refl _
        · omega
      · have hc' := ih c' hr s hs'
        split_ifs with hle
        · exact le_trans hle hc'
        · exact hc'

theorem minByAbsLoop_eq_firstMinBy (t : ℤ) :
    ∀ (l : List Snapshot) (best : Snapshot),
      minByAbsLoop t best l =
        (match firstMinBy (fun s => |s.timestamp - t|) l with
        | none => best
        | some c => if |c.timestamp - t| < |best.timestamp - t| then c else best) := by
  intro l
  induction l with
  | nil => intro best; rfl
  | cons a rest ih =>
    intro best
    rw [minByAbsLoop, firstMinBy, ih]
    cases hr : firstMinBy (fun s => |s.timestamp - t|) rest with
    | none => simp only
    | some c =>
      simp only
      split_ifs <;> first | rfl | omega

theorem closestSnapshot_eq_firstMinBy (a : Snapshot) (rest : List Snapshot) (t : ℤ) :
    some (closestSnapshot a rest t) = firstMinBy (fun s => |s.timestamp - t|) (a :: rest) := by
  rw [closestSnapshot, minByAbsLoop_eq_firstMinBy, firstMinBy]
  cases hr : firstMinBy (fun s => |s.timestamp - t|) rest with
  | none => rfl
  | some c =>
    simp only
    split_ifs <;> first | rfl | omega


/-- C7: `get_tvl_for_date` returns 0 on an empty snapshot list; on a non-empty
list the chosen snapshot is a member minimizing |timestamp − target| and
coincides with the spec-side first minimizer (first wins on ties), the result
is the float coercion of its totalLiquidity, and a null or absent
totalLiquidity on the chosen snapshot yields 0. -/
theorem c7_thm :
    (∀ t : ℤ, get_tvl_for_date [] t = .ok 0) ∧
    (∀ (a : Snapshot) (rest : List Snapshot) (t : ℤ),
      closestSnapshot a rest t ∈ a :: rest ∧
      some (closestSnapshot a rest t)
        = firstMinBy (fun s => |s.timestamp - t|) (a :: rest) ∧
      (∀ s ∈ a :: rest,
        |(closestSnapshot a rest t).timestamp - t| ≤ |s.timestamp - t|) ∧
      get_tvl_for_date (a :: rest) t =
        pyFloat (pyOr ((closestSnapshot a rest t).totalLiquidity.getD (.vNum 0))
          (.vNum 0)) ∧
      (((closestSnapshot a rest t).totalLiquidity = some .vNone ∨
          (closestSnapshot a rest t).totalLiquidity = none) →
        get_tvl_for_date (a :: rest) t = .ok 0)) := by
  refine ⟨fun t => rfl, ?_⟩
  intro a rest t
  have heq := closestSnapshot_eq_firstMinBy a rest t
  refine ⟨firstMinBy_mem _ (a :: rest) _ heq.symm, heq, ?_, rfl, ?_⟩
  · intro s hs
    exact firstMinBy_min _ (a :: rest) _ heq.symm s hs
  · intro hnull
    rw [get_tvl_for_date]
    rcases hnull with h | h <;> rw [h] <;> rfl

/-- Witness for C7 at a two-snapshot list whose nearest snapshot has a null
totalLiquidity. -/
theorem c7_thm_witness :
    get_tvl_for_date [⟨100, some (.vNum 10)⟩, ⟨200, some .vNone⟩] 210 = .ok 0 :=
  (c7_thm.2 ⟨100, some (.vNum 10)⟩ [⟨200, some .vNone⟩] 210).2.2.2.2 (Or.inl rfl)

end Balancer
